import Mathlib

/-!
Verification of the segmentation logic of `tui-pattern-highlighter`
(src/lib.rs): `highlight_line` and `highlight_text`.

Shallow embedding conventions:
* Strings are `List Char`; the offsets reported by the matcher index this
  list (the source trusts the matcher's offsets as given).
* A ratatui `Span` becomes `Span α`: its content plus an optional style
  (`none` for a plain span built with `Span::from`, `some st` for a span
  built with `.style(st)`).  The style type is an opaque parameter `α`.
* The external regex engine is abstracted by `Matcher`: a function from the
  subject string to its ordered list of match spans `[start, end)`.  A
  pattern string is embedded as `Option Matcher`: `some reg` when the
  pattern compiles, `none` when `Regex::new` fails, in which case the
  source's `.unwrap()` panics — modelled as the functions returning `none`.
* `validSpans` is the matcher contract the source trusts: spans are in
  left-to-right non-overlapping order and within bounds.
-/

namespace PatternHighlighter

/-- A styled text fragment: embedding of ratatui's `Span` as the source uses
it (`Span::from(s)` ↦ `style = none`, `.style(st)` ↦ `style = some st`). -/
structure Span (α : Type) where
  content : List Char
  style : Option α
deriving DecidableEq

/-- The compiled-regex collaborator: a subject string to its list of
non-overlapping match spans `[start, end)`, as `Regex::find_iter` yields. -/
abbrev Matcher : Type := List Char → List (Nat × Nat)

/-- Rust slice `l[a..b]` on a char-list string. -/
def slice (l : List Char) (a b : Nat) : List Char := (l.drop a).take (b - a)

/-- The matcher contract the source trusts (spec §3, Match Span): each span
`[s, e)` has `lo ≤ s ≤ e ≤ n` where `lo` is the end of the previous span
(`0` initially) and `n` is the subject length. -/
def validSpans (n : Nat) : Nat → List (Nat × Nat) → Bool
  | _, [] => true
  | lo, (s, e) :: ms =>
      decide (lo ≤ s) && decide (s ≤ e) && decide (e ≤ n) && validSpans n e ms

/-- The fragment-emitting loop of `highlight_line` (src/lib.rs lines 47-59):
for each match `[s, e)` push a plain gap span when `s > last_index`, push the
matched text with the highlight style, set `last_index` to `e`; after the
loop push the plain tail when `line.len() > last_index`. -/
def lineLoop {α : Type} (line : List Char) (style : α) :
    Nat → List (Nat × Nat) → List (Span α)
  | last, [] =>
      if line.length > last then [⟨line.drop last, none⟩] else []
  | last, (s, e) :: ms =>
      (if s > last then [⟨slice line last s, none⟩] else []) ++
        ⟨slice line s e, some style⟩ :: lineLoop line style e ms

/-- `highlight_line` (src/lib.rs lines 39-62).  `Regex::new(pattern).unwrap()`
panics on an invalid pattern, embedded as returning `none`; on a valid
pattern the result is the fragment list produced by the loop over
`reg.find_iter(&line)`. -/
def highlight_line {α : Type} (line : List Char) (pattern : Option Matcher)
    (style : α) : Option (List (Span α)) :=
  match pattern with
  | none => none
  | some reg => some (lineLoop line style 0 (reg line))

/-- Offsets of the `'\n'` characters of the string, in increasing order:
embedding of `text.match_indices('\n')` (src/lib.rs line 112). -/
def newlinePos : List Char → List Nat
  | [] => []
  | c :: cs =>
      if c = '\n' then 0 :: (newlinePos cs).map (· + 1)
      else (newlinePos cs).map (· + 1)

/-- The line-emitting loop of `highlight_text` (src/lib.rs lines 110-127):
for each newline offset `i` highlight the segment `text[last_index..i]` and
set `last_index` to `i + 1`; afterwards, when `text.len() > last_index`,
highlight the trailing segment `text[last_index..]`.  A panic inside any
`highlight_line` call aborts the whole computation (`Option` bind). -/
def textLoop {α : Type} (text : List Char) (pattern : Option Matcher)
    (style : α) : Nat → List Nat → Option (List (List (Span α)))
  | last, [] =>
      if text.length > last then
        (highlight_line (text.drop last) pattern style).map fun l => [l]
      else some []
  | last, i :: is => do
      let l ← highlight_line (slice text last i) pattern style
      let rest ← textLoop text pattern style (i + 1) is
      pure (l :: rest)

/-- `highlight_text` (src/lib.rs lines 103-130). -/
def highlight_text {α : Type} (text : List Char) (pattern : Option Matcher)
    (style : α) : Option (List (List (Span α))) :=
  textLoop text pattern style 0 (newlinePos text)

/- ### Reconstruction (C1) -/

theorem slice_append_drop (l : List Char) {a b : Nat} (h : a ≤ b) :
    slice l a b ++ l.drop b = l.drop a := by
  have hd : l.drop b = (l.drop a).drop (b - a) := by
    rw [List.drop_drop]
    congr 1
    omega
  rw [slice, hd, List.take_append_drop]

theorem lineLoop_content_join {α : Type} (line : List Char) (style : α) :
    ∀ (ms : List (Nat × Nat)) (last : Nat),
      validSpans line.length last ms = true →
      ((lineLoop line style last ms).map Span.content).flatten = line.drop last := by
  intro ms
  induction ms with
  | nil =>
      intro last _
      simp only [lineLoop]
      by_cases h : line.length > last
      · simp [h]
      · simp [h, List.drop_eq_nil_iff.mpr (Nat.le_of_not_lt h)]
  | cons m ms ih =>
      obtain ⟨s, e⟩ := m
      intro last hv
      simp only [validSpans, Bool.and_eq_true, decide_eq_true_eq] at hv
      obtain ⟨⟨⟨h1, h2⟩, _h3⟩, h4⟩ := hv
      by_cases hgap : s > last
      · simp only [lineLoop, if_pos hgap, List.map_append, List.map_cons,
          List.flatten_append, List.flatten_cons, List.map_nil, List.flatten_nil,
          List.append_nil, List.nil_append, List.append_assoc]
        rw [ih e h4, slice_append_drop line h2, slice_append_drop line h1]
      · have hs : s = last := Nat.le_antisymm (Nat.le_of_not_lt hgap) h1
        simp only [lineLoop, if_neg hgap, List.nil_append, List.map_cons,
          List.flatten_cons]
        rw [ih e h4, slice_append_drop line h2, hs]

/-- Claim C1: for every string, valid pattern, and style, concatenating the
contents of all fragments of `highlight_line`, in order, yields exactly the
input string. -/
theorem highlight_line_reconstruction {α : Type} (line : List Char)
    (reg : Matcher) (style : α)
    (hv : validSpans line.length 0 (reg line) = true) :
    (highlight_line line (some reg) style).map
        (fun frags => (frags.map Span.content).flatten) = some line := by
  simp only [highlight_line, Option.map_some']
  rw [lineLoop_content_join line style (reg line) 0 hv, List.drop_zero]

theorem highlight_line_reconstruction_witness :
    validSpans ("Hi @buddy".toList).length 0 [(3, 9)] = true ∧
    (highlight_line "Hi @buddy".toList (some fun _ => [(3, 9)]) (0 : Nat)).map
        (fun frags => (frags.map Span.content).flatten) = some "Hi @buddy".toList :=
  ⟨by decide, highlight_line_reconstruction "Hi @buddy".toList
    (fun _ => [(3, 9)]) 0 (by decide)⟩

/- ### The spec's cursor-scan description of the line algorithm (C2) -/

/-- One step of the scan described by the spec (§4.1 step 3), as the fold
suggested in §9: given `(cursor, fragments)` and a match `[s, e)`, append a
plain gap fragment exactly when `s > cursor`, then the highlighted match
fragment, and move the cursor to `e`. -/
def scanStep {α : Type} (line : List Char) (style : α)
    (st : Nat × List (Span α)) (m : Nat × Nat) : Nat × List (Span α) :=
  (m.2, (if m.1 > st.1 then st.2 ++ [⟨slice line st.1 m.1, none⟩] else st.2) ++
    [⟨slice line m.1 m.2, some style⟩])

/-- The spec's description of the line algorithm (claim C2): fold the scan
step over the match spans starting from cursor `0`, then append one final
plain fragment `line[cursor..]` exactly when the cursor is short of the end. -/
def scanSpec {α : Type} (line : List Char) (ms : List (Nat × Nat))
    (style : α) : List (Span α) :=
  let st := ms.foldl (scanStep line style) (0, [])
  if st.1 < line.length then st.2 ++ [⟨line.drop st.1, none⟩] else st.2

theorem foldl_scanStep_eq {α : Type} (line : List Char) (style : α) :
    ∀ (ms : List (Nat × Nat)) (cursor : Nat) (acc : List (Span α)),
      (let st := ms.foldl (scanStep line style) (cursor, acc)
       if st.1 < line.length then st.2 ++ [⟨line.drop st.1, none⟩] else st.2) =
        acc ++ lineLoop line style cursor ms := by
  intro ms
  induction ms with
  | nil =>
      intro cursor acc
      by_cases h : cursor < line.length <;>
        simp [lineLoop, h]
  | cons m ms ih =>
      intro cursor acc
      obtain ⟨s, e⟩ := m
      simp only [List.foldl_cons, scanStep]
      rw [ih]
      by_cases h : s > cursor <;>
        simp [lineLoop, h, List.append_assoc]

/-- Claim C2: on a valid pattern, `highlight_line` produces exactly the
fragment sequence described by the spec's cursor scan (`scanSpec`) over the
matcher's spans: a plain gap fragment exactly when `start > cursor`, the
highlighted match fragment, cursor advanced to `end`, and a final plain
tail fragment exactly when the cursor is short of the line's length. -/
theorem highlight_line_scan_spec {α : Type} (line : List Char) (reg : Matcher)
    (style : α) :
    highlight_line line (some reg) style =
      some (scanSpec line (reg line) style) := by
  simp only [highlight_line, scanSpec]
  rw [foldl_scanStep_eq line style (reg line) 0 []]
  rw [List.nil_append]

/- ### No-match identity (C4) -/

/-- Claim C4: if the pattern matches nowhere in the line, `highlight_line`
returns one plain fragment equal to the whole line, or no fragment at all
when the line is empty. -/
theorem highlight_line_no_match {α : Type} (line : List Char) (reg : Matcher)
    (style : α) (h : reg line = []) :
    highlight_line line (some reg) style =
      some (if line.isEmpty then [] else [⟨line, none⟩]) := by
  simp only [highlight_line, h, lineLoop]
  cases line <;> simp

theorem highlight_line_no_match_witness :
    (fun _ => ([] : List (Nat × Nat))) "no mentions here".toList = [] ∧
    highlight_line "no mentions here".toList
        (some fun _ => ([] : List (Nat × Nat))) (0 : Nat) =
      some (if ("no mentions here".toList).isEmpty then []
            else [⟨"no mentions here".toList, none⟩]) :=
  ⟨rfl, highlight_line_no_match "no mentions here".toList
    (fun _ => ([] : List (Nat × Nat))) 0 rfl⟩

/- ### Plain fragments are never empty (C7) -/

theorem lineLoop_plain_ne_nil {α : Type} (line : List Char) (style : α) :
    ∀ (ms : List (Nat × Nat)) (last : Nat),
      validSpans line.length last ms = true →
      ∀ f ∈ lineLoop line style last ms, f.style = none → f.content ≠ [] := by
  intro ms
  induction ms with
  | nil =>
      intro last _ f hf _
      simp only [lineLoop] at hf
      by_cases h : line.length > last
      · rw [if_pos h] at hf
        simp only [List.mem_singleton] at hf
        subst hf
        simpa [List.drop_eq_nil_iff] using h
      · rw [if_neg h] at hf
        simp at hf
  | cons m ms ih =>
      obtain ⟨s, e⟩ := m
      intro last hv f hf hstyle
      simp only [validSpans, Bool.and_eq_true, decide_eq_true_eq] at hv
      obtain ⟨⟨⟨_h1, h2⟩, h3⟩, h4⟩ := hv
      simp only [lineLoop, List.mem_append, List.mem_cons] at hf
      rcases hf with hgapmem | hmatch | hrest
      · by_cases hgap : s > last
        · rw [if_pos hgap] at hgapmem
          simp only [List.mem_singleton] at hgapmem
          subst hgapmem
          have hlt : last < line.length := lt_of_lt_of_le (lt_of_lt_of_le hgap h2) h3
          simp only [slice, ne_eq, List.take_eq_nil_iff, not_or]
          constructor
          · omega
          · simpa [List.drop_eq_nil_iff] using hlt
        · rw [if_neg hgap] at hgapmem
          simp at hgapmem
      · subst hmatch
        simp at hstyle
      · exact ih e h4 f hrest hstyle

/-- Claim C7: on a valid pattern, every plain (unstyled) fragment produced by
`highlight_line` is non-empty — no empty plain fragment is emitted for a
zero-length gap between adjacent matches, before the first match, or after
the last. -/
theorem plain_fragments_nonempty {α : Type} (line : List Char) (reg : Matcher)
    (style : α) (hv : validSpans line.length 0 (reg line) = true) :
    ∀ f ∈ (highlight_line line (some reg) style).getD [],
      f.style = none → f.content ≠ [] := by
  simpa [highlight_line] using lineLoop_plain_ne_nil line style (reg line) 0 hv

theorem plain_fragments_nonempty_witness :
    (⟨"Hi ".toList, none⟩ : Span Nat).content ≠ [] :=
  plain_fragments_nonempty "Hi @buddy".toList (fun _ => [(3, 9)]) 0 (by decide)
    ⟨"Hi ".toList, none⟩ (by decide) rfl

/- ### Zero-length matches produce empty highlighted fragments (C10) -/

theorem match_span_mem_lineLoop {α : Type} (line : List Char) (style : α) :
    ∀ (ms : List (Nat × Nat)) (last s e : Nat), (s, e) ∈ ms →
      (⟨slice line s e, some style⟩ : Span α) ∈ lineLoop line style last ms := by
  intro ms
  induction ms with
  | nil => simp
  | cons m ms ih =>
      intro last s e hmem
      obtain ⟨s', e'⟩ := m
      simp only [lineLoop, List.mem_append, List.mem_cons]
      rcases List.mem_cons.mp hmem with h | h
      · right
        left
        obtain ⟨hs, he⟩ := Prod.mk.injEq .. ▸ h
        rw [hs, he]
      · right
        right
        exact ih e' s e h

/-- Claim C10: when the matcher reports a zero-length span `[i, i)`,
`highlight_line` emits an empty highlighted fragment for it — the
non-emptiness guard applies only to plain gap and tail fragments. -/
theorem zero_length_match_empty_fragment {α : Type} (line : List Char)
    (reg : Matcher) (style : α) (i : Nat) (h : (i, i) ∈ reg line) :
    (⟨[], some style⟩ : Span α) ∈ (highlight_line line (some reg) style).getD [] := by
  have hm := match_span_mem_lineLoop line style (reg line) 0 i i h
  simpa [highlight_line, slice] using hm

theorem zero_length_match_empty_fragment_witness :
    ((0 : Nat), (0 : Nat)) ∈ (fun _ => [((0 : Nat), (0 : Nat))]) ([] : List Char) ∧
    (⟨[], some (7 : Nat)⟩ : Span Nat) ∈
      (highlight_line [] (some fun _ => [(0, 0)]) (7 : Nat)).getD [] :=
  ⟨by decide, zero_length_match_empty_fragment [] (fun _ => [(0, 0)]) 7 0 (by decide)⟩

/- ### The spec's split-and-map description of the text algorithm (C8) -/

/-- The newline split of §4.2's boundary rule, written as the naive
split-then-map reference would compute it: one segment per newline (the part
before it), plus a final segment for a non-empty trailing remainder; an
empty trailing remainder after the last newline yields no segment. -/
def splitSegmentsSpec : List Char → List (List Char)
  | [] => []
  | c :: cs =>
      if c = '\n' then [] :: splitSegmentsSpec cs
      else
        match splitSegmentsSpec cs with
        | [] => [[c]]
        | seg :: segs => (c :: seg) :: segs

/-- The naive split-and-map reference implementation of the spec (§4.2
design rationale): split first, then map `highlight_line` over the
segments. -/
def highlight_text_naive {α : Type} (text : List Char)
    (pattern : Option Matcher) (style : α) : Option (List (List (Span α))) :=
  (splitSegmentsSpec text).mapM fun seg => highlight_line seg pattern style

/-- Whether the string's last character is a newline. -/
def endsWithNewline : List Char → Bool
  | [] => false
  | [c] => c == '\n'
  | _ :: cs => endsWithNewline cs

theorem splitSegmentsSpec_ne_nil (c : Char) (cs : List Char) :
    splitSegmentsSpec (c :: cs) ≠ [] := by
  simp only [splitSegmentsSpec]
  by_cases hc : c = '\n'
  · simp [hc]
  · rw [if_neg hc]
    cases splitSegmentsSpec cs <;> simp

theorem splitSegmentsSpec_of_newlinePos_nil :
    ∀ s : List Char, newlinePos s = [] →
      splitSegmentsSpec s = if s.isEmpty then [] else [s] := by
  intro s
  induction s with
  | nil => simp [splitSegmentsSpec]
  | cons c cs ih =>
      intro h
      simp only [newlinePos] at h
      by_cases hc : c = '\n'
      · rw [if_pos hc] at h
        exact absurd h (by simp)
      · rw [if_neg hc] at h
        have hcs : newlinePos cs = [] := by
          simpa using h
        simp only [splitSegmentsSpec, if_neg hc, ih hcs, List.isEmpty_cons]
        cases cs <;> simp

theorem newlinePos_cons_split :
    ∀ (s : List Char) (j : Nat) (qs : List Nat), newlinePos s = j :: qs →
      splitSegmentsSpec s =
          s.take j :: splitSegmentsSpec (s.drop (j + 1)) ∧
        qs = (newlinePos (s.drop (j + 1))).map (· + (j + 1)) := by
  intro s
  induction s with
  | nil => simp [newlinePos]
  | cons c cs ih =>
      intro j qs h
      simp only [newlinePos] at h
      by_cases hc : c = '\n'
      · rw [if_pos hc] at h
        obtain ⟨hj, hqs⟩ := List.cons.injEq .. ▸ h
        refine ⟨?_, ?_⟩
        · simp [splitSegmentsSpec, hc, ← hj]
        · simpa [← hj] using hqs.symm
      · rw [if_neg hc] at h
        cases hcs : newlinePos cs with
        | nil => rw [hcs] at h; simp at h
        | cons j' qs' =>
            rw [hcs] at h
            simp only [List.map_cons] at h
            obtain ⟨hj, hqs⟩ := List.cons.injEq .. ▸ h
            obtain ⟨ih1, ih2⟩ := ih j' qs' hcs
            subst hj
            refine ⟨?_, ?_⟩
            · have hsplit : splitSegmentsSpec cs =
                  cs.take j' :: splitSegmentsSpec (cs.drop (j' + 1)) := ih1
              simp only [splitSegmentsSpec, if_neg hc, hsplit,
                List.take_succ_cons, List.drop_succ_cons]
            · rw [← hqs, ih2, List.map_map, List.drop_succ_cons]
              congr 1

/-- `textLoop` started at cursor `last` on the newline offsets of the
remaining suffix computes the naive per-segment result for that suffix. -/
theorem textLoop_some_eq {α : Type} (text : List Char) (reg : Matcher)
    (style : α) :
    ∀ (ps : List Nat) (last : Nat),
      ps = (newlinePos (text.drop last)).map (· + last) →
      textLoop text (some reg) style last ps =
        some ((splitSegmentsSpec (text.drop last)).map
          fun seg => lineLoop seg style 0 (reg seg)) := by
  intro ps
  induction ps with
  | nil =>
      intro last h
      have hnp : newlinePos (text.drop last) = [] := by
        cases hx : newlinePos (text.drop last) with
        | nil => rfl
        | cons a as => rw [hx] at h; simp at h
      by_cases hlen : text.length > last
      · have hne : ¬(text.drop last).isEmpty := by
          simp [List.isEmpty_iff, List.drop_eq_nil_iff]
          omega
        simp only [textLoop, if_pos hlen, highlight_line, Option.map_some',
          splitSegmentsSpec_of_newlinePos_nil _ hnp, if_neg hne, List.map_cons,
          List.map_nil]
      · have hnil : text.drop last = [] :=
          List.drop_eq_nil_iff.mpr (Nat.le_of_not_lt hlen)
        simp [textLoop, if_neg hlen, hnil, splitSegmentsSpec]
  | cons i ps' ih =>
      intro last h
      cases hnp : newlinePos (text.drop last) with
      | nil => rw [hnp] at h; simp at h
      | cons j qs =>
          rw [hnp] at h
          simp only [List.map_cons] at h
          obtain ⟨hi, hps⟩ := List.cons.injEq .. ▸ h
          obtain ⟨hsplit, hqs⟩ := newlinePos_cons_split _ j qs hnp
          have hdrop : (text.drop last).drop (j + 1) = text.drop (i + 1) := by
            rw [List.drop_drop]
            congr 1
            omega
          have hslice : slice text last i = (text.drop last).take j := by
            simp only [slice]
            congr 1
            omega
          have hps' : ps' = (newlinePos (text.drop (i + 1))).map (· + (i + 1)) := by
            rw [hps, hqs, hdrop, List.map_map]
            congr 1
            funext x
            simp only [Function.comp_apply]
            omega
          simp only [textLoop, highlight_line, Option.bind_eq_bind,
            Option.some_bind, ih (i + 1) hps', hsplit, List.map_cons, hslice,
            hdrop, Option.pure_def]

/-- On a valid pattern, `highlight_text` computes exactly the naive
split-and-map result, fully evaluated. -/
theorem highlight_text_some_eq {α : Type} (text : List Char) (reg : Matcher)
    (style : α) :
    highlight_text text (some reg) style =
      some ((splitSegmentsSpec text).map
        fun seg => lineLoop seg style 0 (reg seg)) := by
  have h := textLoop_some_eq text reg style (newlinePos text) 0 (by simp)
  simpa [highlight_text] using h

theorem splitSegmentsSpec_cons (c : Char) (cs : List Char) :
    splitSegmentsSpec (c :: cs) =
      if c = '\n' then [] :: splitSegmentsSpec cs
      else
        match splitSegmentsSpec cs with
        | [] => [[c]]
        | seg :: segs => (c :: seg) :: segs := rfl

theorem option_mapM_some {α β : Type} (f : α → β) :
    ∀ l : List α, l.mapM (fun a => some (f a)) = some (l.map f) := by
  intro l
  rw [← List.mapM'_eq_mapM]
  induction l with
  | nil => rfl
  | cons a l ih => simp [List.mapM', ih]

theorem highlight_text_none_of_ne_nil {α : Type} (text : List Char)
    (style : α) (h : text ≠ []) : highlight_text text none style = none := by
  unfold highlight_text
  cases hnp : newlinePos text with
  | nil =>
      have hlen : text.length > 0 := List.length_pos.mpr h
      simp [textLoop, highlight_line, hlen]
  | cons i is => simp [textLoop, highlight_line]

/-- Claim C8: the single-forward-scan `highlight_text` is observationally
equivalent to the naive implementation that first splits the input on
newlines (per the §4.2 boundary rule) and then maps `highlight_line` with
the same pattern and style over the segments. -/
theorem highlight_text_eq_naive {α : Type} (text : List Char)
    (pattern : Option Matcher) (style : α) :
    highlight_text text pattern style =
      highlight_text_naive text pattern style := by
  cases pattern with
  | some reg =>
      rw [highlight_text_some_eq]
      exact (option_mapM_some (fun seg => lineLoop seg style 0 (reg seg))
        (splitSegmentsSpec text)).symm
  | none =>
      cases text with
      | nil => rfl
      | cons c cs =>
          rw [highlight_text_none_of_ne_nil _ _ (by simp)]
          unfold highlight_text_naive
          rw [← List.mapM'_eq_mapM]
          cases hs : splitSegmentsSpec (c :: cs) with
          | nil => exact absurd hs (splitSegmentsSpec_ne_nil c cs)
          | cons seg segs => simp [highlight_line, List.mapM']

/- ### Line counting (C3, C5) -/

theorem splitSegmentsSpec_length : ∀ s : List Char,
    (splitSegmentsSpec s).length =
      s.count '\n' + (if s.isEmpty || endsWithNewline s then 0 else 1) := by
  intro s
  induction s with
  | nil => simp [splitSegmentsSpec, endsWithNewline]
  | cons c cs ih =>
      by_cases hc : c = '\n'
      · subst hc
        cases cs with
        | nil => simp [splitSegmentsSpec, endsWithNewline]
        | cons c' cs' =>
            have hlen : (splitSegmentsSpec ('\n' :: c' :: cs')).length =
                (splitSegmentsSpec (c' :: cs')).length + 1 := by
              rw [splitSegmentsSpec_cons, if_pos rfl, List.length_cons]
            rw [hlen, ih]
            have hend : endsWithNewline ('\n' :: c' :: cs') =
                endsWithNewline (c' :: cs') := rfl
            simp [List.count_cons, hend]
            omega
      · cases cs with
        | nil => simp [splitSegmentsSpec, endsWithNewline, hc, List.count_cons]
        | cons c' cs' =>
            obtain ⟨seg, segs, hs⟩ : ∃ seg segs,
                splitSegmentsSpec (c' :: cs') = seg :: segs := by
              cases h : splitSegmentsSpec (c' :: cs') with
              | nil => exact absurd h (splitSegmentsSpec_ne_nil c' cs')
              | cons seg segs => exact ⟨seg, segs, rfl⟩
            have hlen : (splitSegmentsSpec (c :: c' :: cs')).length =
                (splitSegmentsSpec (c' :: cs')).length := by
              rw [splitSegmentsSpec_cons, if_neg hc, hs]
              rfl
            rw [hlen, ih]
            have hend : endsWithNewline (c :: c' :: cs') =
                endsWithNewline (c' :: cs') := rfl
            simp [List.count_cons, hend, hc]

/-- Claim C3: the number of lines of `highlight_text` equals the number of
newline characters of the input, plus one exactly when the segment after the
last newline (the whole input when it has no newline) is non-empty. -/
theorem highlight_text_line_count {α : Type} (text : List Char)
    (reg : Matcher) (style : α) :
    (highlight_text text (some reg) style).map List.length =
      some (text.count '\n' +
        if text.isEmpty || endsWithNewline text then 0 else 1) := by
  rw [highlight_text_some_eq]
  simp [splitSegmentsSpec_length]

/-- Claim C5: an input ending exactly on a newline yields exactly as many
lines as it has newline characters (no line for the empty trailing segment),
and the empty input yields zero lines, for every valid pattern. -/
theorem highlight_text_boundary {α : Type} :
    (∀ (text : List Char) (reg : Matcher) (style : α),
        endsWithNewline text = true →
        (highlight_text text (some reg) style).map List.length =
          some (text.count '\n')) ∧
    (∀ (reg : Matcher) (style : α),
        highlight_text [] (some reg) style = some []) := by
  constructor
  · intro text reg style h
    rw [highlight_text_some_eq]
    simp [splitSegmentsSpec_length, h]
  · intro reg style
    rfl

theorem highlight_text_boundary_witness :
    endsWithNewline "hi\n".toList = true ∧
    (highlight_text "hi\n".toList (some fun _ => []) (0 : Nat)).map List.length =
      some (("hi\n".toList).count '\n') ∧
    highlight_text [] (some fun _ => []) (0 : Nat) = some [] :=
  ⟨by decide, highlight_text_boundary.1 "hi\n".toList (fun _ => []) 0 (by decide),
    highlight_text_boundary.2 (fun _ => []) 0⟩

/- ### Invalid pattern behavior (C6, C9) -/

/-- Claim C6 is false as stated: with an invalid pattern (failed compile,
embedded as `none`) and the empty input, `highlight_text` does not fail — it
returns an empty output, because the pattern is only compiled inside
`highlight_line`, which is never invoked for the empty input. -/
theorem highlight_text_invalid_empty_no_failure :
    highlight_text [] (none : Option Matcher) (0 : Nat) = some [] ∧
    highlight_text [] (none : Option Matcher) (0 : Nat) ≠ none :=
  ⟨rfl, by decide⟩

/-- Claim C6 (amended): with an invalid pattern, `highlight_line` fails
before producing output on every input, and `highlight_text` does so on
every non-empty input; the empty input to `highlight_text` is the one
exception, where an empty output is returned without the pattern ever being
compiled. -/
theorem invalid_pattern_fails {α : Type} :
    (∀ (line : List Char) (style : α), highlight_line line none style = none) ∧
    (∀ (text : List Char) (style : α), text ≠ [] →
        highlight_text text none style = none) :=
  ⟨fun _ _ => rfl, fun text style h => highlight_text_none_of_ne_nil text style h⟩

theorem invalid_pattern_fails_witness :
    highlight_line ['a'] (none : Option Matcher) (0 : Nat) = none ∧
    highlight_text ['a'] (none : Option Matcher) (0 : Nat) = none :=
  ⟨invalid_pattern_fails.1 ['a'] 0, invalid_pattern_fails.2 ['a'] 0 (by decide)⟩

/-- Claim C9: on the empty input `highlight_text` returns an empty output
without ever compiling the pattern, so the call succeeds for every pattern,
including an invalid one (`none`). -/
theorem highlight_text_empty_any_pattern {α : Type} (pattern : Option Matcher)
    (style : α) : highlight_text [] pattern style = some [] := rfl

end PatternHighlighter
